import Mathlib

/-!
Verification of the lazy-initialization cell in `src/lazy.rs` (the `Lazy<T, F>`
type with its `new` constructor, `Drop` impl, and double-checked-locking
`Deref::deref`).

The shallow embedding models the shared state of one cell (`Lazy`), the
per-thread control state of an in-flight `deref` call (`PC`), and an
interleaving small-step semantics (`stepThread`) in which each atomic
operation of the source is one step.  Pointers returned by
`Box::into_raw(Box::new(value))` are modelled as allocation identifiers
(`Nat`); the null pointer in the `AtomicPtr<T>` slot is `Option.none`.
Ghost fields record the number of invocations of the stored initializer
(`initCount`) and the next fresh allocation identifier (`nextPtr`); they
correspond to no run-time state and are written only where the source
invokes the closure `self.init` resp. allocates.

An event vocabulary (`Event`, `stepEvents`) records, for each step, which
atomic operations of the source it performs together with their memory
orderings, mirroring the `Ordering` arguments written in the source.
-/

namespace LazyRs

/-- Memory orderings appearing in `src/lazy.rs` (`Acquire` and `SeqCst`). -/
inductive MemOrder where
  | acquire : MemOrder
  | seqcst : MemOrder
deriving DecidableEq, Repr

/-- The `Lazy<T, F>` struct: `value: AtomicPtr<T>` (`none` models the null
pointer, `some p` a pointer to heap allocation `p`), `init_mu: AtomicBool`,
and the stored initializer `init: F`. -/
structure Lazy (F : Type) where
  value : Option Nat
  init_mu : Bool
  init : F

/-- `Lazy::new(init)`: slot set to the null pointer, guard set to `false`,
the initializer stored.  A `const fn`: pure, no allocation, cannot fail,
and it does not invoke `init`. -/
def Lazy.new {F : Type} (init : F) : Lazy F :=
  { value := none, init_mu := false, init := init }

/-- `Drop for Lazy`: load the slot; if the pointer is non-null, drop
`Box::from_raw(value_ptr)`, releasing exactly that one heap allocation.
The result lists the allocation identifiers freed by the drop. -/
def Lazy.dropFreed {F : Type} (c : Lazy F) : List Nat :=
  match c.value with
  | some p => [p]
  | none => []

/-- Control state of one in-flight `deref` call, one constructor per atomic
program point of the source:

* `load1`    — about to perform the first `self.value.load(Acquire)`;
* `casLoop`  — inside the `while … compare_exchange(false, true, SeqCst, SeqCst)` loop;
* `load2`    — guard acquired, about to re-check `self.value.load(Acquire)`;
* `unlockFast p` — re-check found pointer `p`, about to `init_mu.swap(false, SeqCst)`
  and return `p`;
* `callInit` — re-check found null, about to invoke `(self.init)()` and box the result;
* `writeSlot p` — produced allocation `p`, about to `self.value.swap(value_ptr, SeqCst)`;
* `unlockSlow p` — slot written, about to `init_mu.swap(false, SeqCst)` and return `p`;
* `ret p`    — the call returned a reference to allocation `p` (terminal);
* `panicked` — an `assert!` in the source failed (fatal abort, terminal). -/
inductive PC where
  | load1 : PC
  | casLoop : PC
  | load2 : PC
  | unlockFast : Nat → PC
  | callInit : PC
  | writeSlot : Nat → PC
  | unlockSlow : Nat → PC
  | ret : Nat → PC
  | panicked : PC
deriving DecidableEq, Repr

/-- A global configuration: the shared cell, the ghost invocation counter for
the stored initializer, the ghost fresh-allocation counter, and the control
state of every agent.  An agent models one `deref` call; since `deref` keeps
no state between calls, a thread calling `deref` repeatedly is modelled by
several agents. -/
structure Config (F : Type) where
  cell : Lazy F
  initCount : Nat
  nextPtr : Nat
  threads : Nat → PC

/-- Replace agent `t`'s control state. -/
def Config.setThread {F : Type} (c : Config F) (t : Nat) (pc : PC) : Config F :=
  { c with threads := fun u => if u = t then pc else c.threads u }

/-- One atomic step of agent `t`, following `deref` line by line.  Agents at
`ret` or `panicked` stutter (a failed `assert!` aborts the process; since the
development proves `panicked` unreachable, how the model continues after a
panic is immaterial). -/
def stepThread {F : Type} (c : Config F) (t : Nat) : Config F :=
  match c.threads t with
  | PC.load1 =>
      match c.cell.value with
      | some p => c.setThread t (PC.ret p)
      | none => c.setThread t PC.casLoop
  | PC.casLoop =>
      if c.cell.init_mu then
        c
      else
        { c.setThread t PC.load2 with cell := { c.cell with init_mu := true } }
  | PC.load2 =>
      match c.cell.value with
      | some p => c.setThread t (PC.unlockFast p)
      | none => c.setThread t PC.callInit
  | PC.unlockFast p =>
      { c.setThread t (if c.cell.init_mu then PC.ret p else PC.panicked) with
          cell := { c.cell with init_mu := false } }
  | PC.callInit =>
      { c.setThread t (PC.writeSlot c.nextPtr) with
          initCount := c.initCount + 1, nextPtr := c.nextPtr + 1 }
  | PC.writeSlot p =>
      { c.setThread t
          (match c.cell.value with
           | none => PC.unlockSlow p
           | some _ => PC.panicked) with
          cell := { c.cell with value := some p } }
  | PC.unlockSlow p =>
      { c.setThread t (if c.cell.init_mu then PC.ret p else PC.panicked) with
          cell := { c.cell with init_mu := false } }
  | PC.ret _ => c
  | PC.panicked => c

/-- The initial configuration of a cell built by `Lazy::new` with every agent
poised to call `deref`. -/
def initConfig {F : Type} (f : F) : Config F :=
  { cell := Lazy.new f, initCount := 0, nextPtr := 0, threads := fun _ => PC.load1 }

/-- Interleaving step: some agent takes its next atomic action. -/
def Step {F : Type} (c c' : Config F) : Prop :=
  ∃ t, c' = stepThread c t

/-- Configurations reachable from the initial configuration of a fresh cell. -/
def Reachable {F : Type} (f : F) (c : Config F) : Prop :=
  Relation.ReflTransGen Step (initConfig f) c

/-- Execute a concrete schedule (a list of agent identifiers) from the initial
configuration. -/
def run {F : Type} (f : F) (sched : List Nat) : Config F :=
  sched.foldl stepThread (initConfig f)

/-- Shared-state operations performed by an atomic step, with the memory
orderings written in the source:

* `loadValue ord r` — `self.value.load(ord)` returning pointer `r`;
* `swapValue ord p old` — `self.value.swap(value_ptr, ord)` storing `p`,
  returning prior pointer `old`;
* `cexMu exp new ordSucc ordFail old` —
  `self.init_mu.compare_exchange(exp, new, ordSucc, ordFail)` observing `old`
  (it writes `new` only when `old = exp`);
* `swapMu ord new old` — `self.init_mu.swap(new, ord)` storing `new`
  unconditionally, returning prior value `old`;
* `invokeInit` — invocation of the stored closure `(self.init)()`;
* `spinHint` — `std::sync::atomic::spin_loop_hint()`. -/
inductive Event where
  | loadValue : MemOrder → Option Nat → Event
  | swapValue : MemOrder → Nat → Option Nat → Event
  | cexMu : Bool → Bool → MemOrder → MemOrder → Bool → Event
  | swapMu : MemOrder → Bool → Bool → Event
  | invokeInit : Event
  | spinHint : Event
deriving DecidableEq, Repr

/-- The ordering of a slot (`self.value`) load, if the event is one. -/
def Event.valueLoadOrd : Event → Option MemOrder
  | Event.loadValue ord _ => some ord
  | _ => none

/-- The ordering of a slot (`self.value`) write, if the event is one. -/
def Event.valueWriteOrd : Event → Option MemOrder
  | Event.swapValue ord _ _ => some ord
  | _ => none

/-- Whether the event is an operation on the guard `self.init_mu`. -/
def Event.isMuOp : Event → Bool
  | Event.cexMu _ _ _ _ _ => true
  | Event.swapMu _ _ _ => true
  | _ => false

/-- Whether the event is a compare-and-swap (an atomic operation that updates
the flag only if it currently equals the expected prior value). -/
def Event.isCex : Event → Bool
  | Event.cexMu _ _ _ _ _ => true
  | _ => false

/-- The shared-state operations performed when agent `t` takes its next step
from `c`, mirroring the atomic calls `stepThread` executes there. -/
def stepEvents {F : Type} (c : Config F) (t : Nat) : List Event :=
  match c.threads t with
  | PC.load1 => [Event.loadValue MemOrder.acquire c.cell.value]
  | PC.casLoop =>
      Event.cexMu false true MemOrder.seqcst MemOrder.seqcst c.cell.init_mu ::
        (if c.cell.init_mu then [Event.spinHint] else [])
  | PC.load2 => [Event.loadValue MemOrder.acquire c.cell.value]
  | PC.unlockFast _ => [Event.swapMu MemOrder.seqcst false c.cell.init_mu]
  | PC.callInit => [Event.invokeInit]
  | PC.writeSlot p => [Event.swapValue MemOrder.seqcst p c.cell.value]
  | PC.unlockSlow _ => [Event.swapMu MemOrder.seqcst false c.cell.init_mu]
  | PC.ret _ => []
  | PC.panicked => []

@[simp]
theorem setThread_cell {F : Type} (c : Config F) (t : Nat) (pc : PC) :
    (c.setThread t pc).cell = c.cell := rfl

@[simp]
theorem setThread_initCount {F : Type} (c : Config F) (t : Nat) (pc : PC) :
    (c.setThread t pc).initCount = c.initCount := rfl

@[simp]
theorem setThread_nextPtr {F : Type} (c : Config F) (t : Nat) (pc : PC) :
    (c.setThread t pc).nextPtr = c.nextPtr := rfl

@[simp]
theorem setThread_threads {F : Type} (c : Config F) (t : Nat) (pc : PC) (u : Nat) :
    (c.setThread t pc).threads u = if u = t then pc else c.threads u := rfl

/-- Every configuration produced by a concrete schedule is reachable. -/
theorem reachable_run {F : Type} (f : F) (sched : List Nat) :
    Reachable f (run f sched) := by
  suffices h : ∀ (l : List Nat) (c : Config F), Reachable f c →
      Reachable f (l.foldl stepThread c) from h sched _ Relation.ReflTransGen.refl
  intro l
  induction l with
  | nil => intro c hc; exact hc
  | cons t ts ih =>
      intro c hc
      exact ih (stepThread c t) (Relation.ReflTransGen.tail hc ⟨t, rfl⟩)

/-- Control states holding the guard `init_mu` (between a successful
`compare_exchange(false, true, …)` and the releasing `swap(false, …)`). -/
def PC.inCrit : PC → Bool
  | PC.load2 => true
  | PC.unlockFast _ => true
  | PC.callInit => true
  | PC.writeSlot _ => true
  | PC.unlockSlow _ => true
  | _ => false

/-- Control states about to perform the slot swap: the initializer has been
invoked but the produced pointer is not yet stored. -/
def PC.isWriter : PC → Bool
  | PC.writeSlot _ => true
  | _ => false

/-- The inductive protocol invariant of the double-checked-locking `deref`:
the guard is held exactly when some agent is in the critical section, by at
most one agent; the slot is still null while the winner is between the second check and the
slot swap, and every completed or unlocking agent's pointer is exactly the
slot's content;
no `assert!` has failed; and the ghost invocation counter is `0` before and
`1` from the moment the initializer runs. -/
structure Inv {F : Type} (c : Config F) : Prop where
  mu_of_crit : ∀ t, (c.threads t).inCrit = true → c.cell.init_mu = true
  crit_unique : ∀ t u, (c.threads t).inCrit = true → (c.threads u).inCrit = true → t = u
  crit_of_mu : c.cell.init_mu = true → ∃ t, (c.threads t).inCrit = true
  pre_value_none : ∀ t, (c.threads t = PC.callInit ∨ ∃ p, c.threads t = PC.writeSlot p) →
    c.cell.value = none
  post_value_eq : ∀ t p, (c.threads t = PC.unlockFast p ∨ c.threads t = PC.unlockSlow p ∨
    c.threads t = PC.ret p) → c.cell.value = some p
  no_panic : ∀ t, c.threads t ≠ PC.panicked
  count_zero : c.cell.value = none → (∀ t, (c.threads t).isWriter = false) → c.initCount = 0
  count_one_writer : ∀ t, (c.threads t).isWriter = true → c.initCount = 1
  count_one_value : c.cell.value ≠ none → c.initCount = 1
  writer_witness : ∀ p, c.cell.value = some p →
    ∃ u, c.threads u = PC.unlockSlow p ∨ c.threads u = PC.ret p

/-- The initial configuration satisfies the protocol invariant. -/
theorem inv_init {F : Type} (f : F) : Inv (initConfig f) := by
  refine ⟨?_, ?_, ?_, ?_, ?_, ?_, ?_, ?_, ?_, ?_⟩ <;>
    simp [initConfig, Lazy.new, PC.inCrit, PC.isWriter]

/-- The invariant is preserved by a step that only moves one agent's control
state, leaving the cell and the ghost counters untouched, under side
conditions matched by the `load1` and `load2` steps. -/
theorem inv_setThread {F : Type} {c : Config F} (h : Inv c) (t : Nat) (pc : PC)
    (h1 : pc.inCrit = (c.threads t).inCrit)
    (h2 : (pc = PC.callInit ∨ ∃ p, pc = PC.writeSlot p) → c.cell.value = none)
    (h3 : pc.isWriter = false)
    (h4 : (c.threads t).isWriter = false)
    (h5 : ∀ p, (pc = PC.unlockFast p ∨ pc = PC.unlockSlow p ∨ pc = PC.ret p) →
      c.cell.value = some p)
    (h6 : pc ≠ PC.panicked)
    (h7 : ∀ p, c.threads t ≠ PC.unlockSlow p ∧ c.threads t ≠ PC.ret p) :
    Inv (c.setThread t pc) := by
  obtain ⟨hmoc, hcu, hcom, hpvn, hpve, hnp, hc0, hc1w, hc1v, hww⟩ := h
  refine ⟨?_, ?_, ?_, ?_, ?_, ?_, ?_, ?_, ?_, ?_⟩
  · intro u hu
    simp only [setThread_threads, setThread_cell] at hu ⊢
    by_cases hut : u = t
    · rw [if_pos hut] at hu
      exact hmoc t (by rw [← h1]; exact hu)
    · rw [if_neg hut] at hu
      exact hmoc u hu
  · intro u v hu hv
    simp only [setThread_threads] at hu hv
    by_cases hut : u = t <;> by_cases hvt : v = t
    · rw [hut, hvt]
    · rw [if_pos hut] at hu
      rw [if_neg hvt] at hv
      rw [hut]
      exact hcu t v (by rw [← h1]; exact hu) hv
    · rw [if_neg hut] at hu
      rw [if_pos hvt] at hv
      rw [hvt]
      exact hcu u t hu (by rw [← h1]; exact hv)
    · rw [if_neg hut] at hu
      rw [if_neg hvt] at hv
      exact hcu u v hu hv
  · intro hmu
    simp only [setThread_cell] at hmu
    obtain ⟨u, hu⟩ := hcom hmu
    by_cases hut : u = t
    · exact ⟨t, by rw [setThread_threads, if_pos rfl, h1, ← hut]; exact hu⟩
    · exact ⟨u, by simp only [setThread_threads, if_neg hut]; exact hu⟩
  · intro u hu
    simp only [setThread_threads, setThread_cell] at hu ⊢
    by_cases hut : u = t
    · rw [if_pos hut] at hu
      exact h2 hu
    · rw [if_neg hut] at hu
      exact hpvn u hu
  · intro u p hu
    simp only [setThread_threads, setThread_cell] at hu ⊢
    by_cases hut : u = t
    · rw [if_pos hut] at hu
      exact h5 p hu
    · rw [if_neg hut] at hu
      exact hpve u p hu
  · intro u
    simp only [setThread_threads]
    by_cases hut : u = t
    · rw [if_pos hut]
      exact h6
    · rw [if_neg hut]
      exact hnp u
  · intro hv hw
    simp only [setThread_cell, setThread_initCount] at hv ⊢
    refine hc0 hv fun u => ?_
    by_cases hut : u = t
    · rw [hut]
      exact h4
    · have := hw u
      rw [setThread_threads, if_neg hut] at this
      exact this
  · intro u hu
    simp only [setThread_threads, setThread_initCount] at hu ⊢
    by_cases hut : u = t
    · rw [if_pos hut] at hu
      exact absurd hu (by rw [h3]; simp)
    · rw [if_neg hut] at hu
      exact hc1w u hu
  · intro hv
    simp only [setThread_cell, setThread_initCount] at hv ⊢
    exact hc1v hv
  · intro p hp
    simp only [setThread_cell, setThread_threads] at hp ⊢
    obtain ⟨u, hu⟩ := hww p hp
    by_cases hut : u = t
    · exfalso
      rcases hu with hu | hu
      · exact (h7 p).1 (by rw [← hut]; exact hu)
      · exact (h7 p).2 (by rw [← hut]; exact hu)
    · exact ⟨u, by rw [if_neg hut]; exact hu⟩

/-- An agent about to perform the slot swap is inside the critical section. -/
theorem PC.inCrit_of_isWriter (pc : PC) (h : pc.isWriter = true) : pc.inCrit = true := by
  cases pc <;> first | rfl | exact Bool.noConfusion h

/-- An agent about to invoke the initializer or swap the slot is inside the
critical section. -/
theorem PC.inCrit_of_pre (pc : PC) (h : pc = PC.callInit ∨ ∃ p, pc = PC.writeSlot p) :
    pc.inCrit = true := by
  rcases h with h | ⟨p, h⟩ <;> rw [h] <;> rfl

/-- Every atomic step of every agent preserves the protocol invariant. -/
theorem inv_step {F : Type} {c : Config F} (h : Inv c) (t : Nat) : Inv (stepThread c t) := by
  cases hpc : c.threads t with
  | load1 =>
      cases hv : c.cell.value with
      | some p =>
          have hstep : stepThread c t = c.setThread t (PC.ret p) := by
            simp [stepThread, hpc, hv]
          rw [hstep]
          refine inv_setThread h t (PC.ret p) (by rw [hpc]; rfl) ?_ rfl (by rw [hpc]; rfl) ?_ ?_ ?_
          · intro hh
            rcases hh with hh | ⟨q, hh⟩ <;> exact PC.noConfusion hh
          · intro q hq
            rcases hq with hq | hq | hq
            · exact PC.noConfusion hq
            · exact PC.noConfusion hq
            · injection hq with hpq
              rw [← hpq]
              exact hv
          · exact fun hh => PC.noConfusion hh
          · intro q
            rw [hpc]
            exact ⟨fun hh => PC.noConfusion hh, fun hh => PC.noConfusion hh⟩
      | none =>
          have hstep : stepThread c t = c.setThread t PC.casLoop := by
            simp [stepThread, hpc, hv]
          rw [hstep]
          refine inv_setThread h t PC.casLoop (by rw [hpc]; rfl) ?_ rfl (by rw [hpc]; rfl) ?_ ?_ ?_
          · intro hh
            rcases hh with hh | ⟨q, hh⟩ <;> exact PC.noConfusion hh
          · intro q hq
            rcases hq with hq | hq | hq <;> exact PC.noConfusion hq
          · exact fun hh => PC.noConfusion hh
          · intro q
            rw [hpc]
            exact ⟨fun hh => PC.noConfusion hh, fun hh => PC.noConfusion hh⟩
  | load2 =>
      cases hv : c.cell.value with
      | some p =>
          have hstep : stepThread c t = c.setThread t (PC.unlockFast p) := by
            simp [stepThread, hpc, hv]
          rw [hstep]
          refine inv_setThread h t (PC.unlockFast p) (by rw [hpc]; rfl) ?_ rfl (by rw [hpc]; rfl) ?_ ?_ ?_
          · intro hh
            rcases hh with hh | ⟨q, hh⟩ <;> exact PC.noConfusion hh
          · intro q hq
            rcases hq with hq | hq | hq
            · injection hq with hpq
              rw [← hpq]
              exact hv
            · exact PC.noConfusion hq
            · exact PC.noConfusion hq
          · exact fun hh => PC.noConfusion hh
          · intro q
            rw [hpc]
            exact ⟨fun hh => PC.noConfusion hh, fun hh => PC.noConfusion hh⟩
      | none =>
          have hstep : stepThread c t = c.setThread t PC.callInit := by
            simp [stepThread, hpc, hv]
          rw [hstep]
          refine inv_setThread h t PC.callInit (by rw [hpc]; rfl) ?_ rfl (by rw [hpc]; rfl) ?_ ?_ ?_
          · intro _
            exact hv
          · intro q hq
            rcases hq with hq | hq | hq <;> exact PC.noConfusion hq
          · exact fun hh => PC.noConfusion hh
          · intro q
            rw [hpc]
            exact ⟨fun hh => PC.noConfusion hh, fun hh => PC.noConfusion hh⟩
  | casLoop =>
      cases hmu : c.cell.init_mu with
      | true =>
          have hstep : stepThread c t = c := by
            simp [stepThread, hpc, hmu]
          rw [hstep]
          exact h
      | false =>
          have hnocrit : ∀ u, (c.threads u).inCrit = true → False := by
            intro u hu
            have hmu2 := h.mu_of_crit u hu
            rw [hmu] at hmu2
            exact Bool.noConfusion hmu2
          have hstep : stepThread c t =
              { c.setThread t PC.load2 with cell := { c.cell with init_mu := true } } := by
            simp [stepThread, hpc, hmu]
          rw [hstep]
          refine ⟨?_, ?_, ?_, ?_, ?_, ?_, ?_, ?_, ?_, ?_⟩
          · intro u _
            rfl
          · intro u v hu hv2
            simp only [setThread_threads] at hu hv2
            by_cases hut : u = t <;> by_cases hvt : v = t
            · rw [hut, hvt]
            · rw [if_neg hvt] at hv2
              exact (hnocrit v hv2).elim
            · rw [if_neg hut] at hu
              exact (hnocrit u hu).elim
            · rw [if_neg hut] at hu
              exact (hnocrit u hu).elim
          · intro _
            exact ⟨t, by simp [setThread_threads, PC.inCrit]⟩
          · intro u hu
            simp only [setThread_threads] at hu
            by_cases hut : u = t
            · rw [if_pos hut] at hu
              rcases hu with hu | ⟨q, hu⟩ <;> exact PC.noConfusion hu
            · rw [if_neg hut] at hu
              exact h.pre_value_none u hu
          · intro u q hu
            simp only [setThread_threads] at hu
            by_cases hut : u = t
            · rw [if_pos hut] at hu
              rcases hu with hu | hu | hu <;> exact PC.noConfusion hu
            · rw [if_neg hut] at hu
              exact h.post_value_eq u q hu
          · intro u
            simp only [setThread_threads]
            by_cases hut : u = t
            · rw [if_pos hut]
              exact fun hh => PC.noConfusion hh
            · rw [if_neg hut]
              exact h.no_panic u
          · intro hv2 hw
            refine h.count_zero hv2 fun u => ?_
            by_cases hut : u = t
            · rw [hut, hpc]
              rfl
            · have := hw u
              simp only [setThread_threads] at this
              rw [if_neg hut] at this
              exact this
          · intro u hu
            simp only [setThread_threads] at hu
            by_cases hut : u = t
            · rw [if_pos hut] at hu
              exact Bool.noConfusion hu
            · rw [if_neg hut] at hu
              exact h.count_one_writer u hu
          · intro hv2
            exact h.count_one_value hv2
          · intro q hq
            have hq' : c.cell.value = some q := hq
            obtain ⟨u, hu⟩ := h.writer_witness q hq'
            by_cases hut : u = t
            · rw [hut, hpc] at hu
              rcases hu with hu | hu <;> exact PC.noConfusion hu
            · exact ⟨u, by simp only [setThread_threads]; rw [if_neg hut]; exact hu⟩
  | unlockFast p =>
      have hcrit_t : (c.threads t).inCrit = true := by rw [hpc]; rfl
      have hmu : c.cell.init_mu = true := h.mu_of_crit t hcrit_t
      have hv : c.cell.value = some p := h.post_value_eq t p (Or.inl hpc)
      have hstep : stepThread c t =
          { c.setThread t (PC.ret p) with cell := { c.cell with init_mu := false } } := by
        simp [stepThread, hpc, hmu]
      rw [hstep]
      refine ⟨?_, ?_, ?_, ?_, ?_, ?_, ?_, ?_, ?_, ?_⟩
      · intro u hu
        exfalso
        simp only [setThread_threads] at hu
        by_cases hut : u = t
        · rw [if_pos hut] at hu
          exact Bool.noConfusion hu
        · rw [if_neg hut] at hu
          exact hut (h.crit_unique u t hu hcrit_t)
      · intro u v hu _
        exfalso
        simp only [setThread_threads] at hu
        by_cases hut : u = t
        · rw [if_pos hut] at hu
          exact Bool.noConfusion hu
        · rw [if_neg hut] at hu
          exact hut (h.crit_unique u t hu hcrit_t)
      · intro hmu2
        exact Bool.noConfusion hmu2
      · intro u hu
        exfalso
        simp only [setThread_threads] at hu
        by_cases hut : u = t
        · rw [if_pos hut] at hu
          rcases hu with hu | ⟨q, hu⟩ <;> exact PC.noConfusion hu
        · rw [if_neg hut] at hu
          have := h.pre_value_none u hu
          rw [hv] at this
          exact Option.noConfusion this
      · intro u q hu
        simp only [setThread_threads] at hu
        by_cases hut : u = t
        · rw [if_pos hut] at hu
          rcases hu with hu | hu | hu
          · exact PC.noConfusion hu
          · exact PC.noConfusion hu
          · injection hu with hpq
            rw [← hpq]
            exact hv
        · rw [if_neg hut] at hu
          exact h.post_value_eq u q hu
      · intro u
        simp only [setThread_threads]
        by_cases hut : u = t
        · rw [if_pos hut]
          exact fun hh => PC.noConfusion hh
        · rw [if_neg hut]
          exact h.no_panic u
      · intro hv2 _
        have hv3 : c.cell.value = none := hv2
        rw [hv] at hv3
        exact Option.noConfusion hv3
      · intro u hu
        simp only [setThread_threads] at hu
        by_cases hut : u = t
        · rw [if_pos hut] at hu
          exact Bool.noConfusion hu
        · rw [if_neg hut] at hu
          exact h.count_one_writer u hu
      · intro _
        refine h.count_one_value ?_
        rw [hv]
        exact fun hh => Option.noConfusion hh
      · intro q hq
        have hq' : c.cell.value = some q := hq
        obtain ⟨u, hu⟩ := h.writer_witness q hq'
        by_cases hut : u = t
        · rw [hut, hpc] at hu
          rcases hu with hu | hu <;> exact PC.noConfusion hu
        · exact ⟨u, by simp only [setThread_threads]; rw [if_neg hut]; exact hu⟩
  | callInit =>
      have hcrit_t : (c.threads t).inCrit = true := by rw [hpc]; rfl
      have hmu : c.cell.init_mu = true := h.mu_of_crit t hcrit_t
      have hv : c.cell.value = none := h.pre_value_none t (Or.inl hpc)
      have hstep : stepThread c t =
          { c.setThread t (PC.writeSlot c.nextPtr) with
              initCount := c.initCount + 1, nextPtr := c.nextPtr + 1 } := by
        simp [stepThread, hpc]
      rw [hstep]
      refine ⟨?_, ?_, ?_, ?_, ?_, ?_, ?_, ?_, ?_, ?_⟩
      · intro u _
        exact hmu
      · intro u v hu hv2
        simp only [setThread_threads] at hu hv2
        have hu' : u = t := by
          by_cases hut : u = t
          · exact hut
          · rw [if_neg hut] at hu
            exact h.crit_unique u t hu hcrit_t
        have hv' : v = t := by
          by_cases hvt : v = t
          · exact hvt
          · rw [if_neg hvt] at hv2
            exact h.crit_unique v t hv2 hcrit_t
        rw [hu', hv']
      · intro _
        exact ⟨t, by simp [setThread_threads, PC.inCrit]⟩
      · intro u _
        exact hv
      · intro u q hu
        exfalso
        simp only [setThread_threads] at hu
        by_cases hut : u = t
        · rw [if_pos hut] at hu
          rcases hu with hu | hu | hu <;> exact PC.noConfusion hu
        · rw [if_neg hut] at hu
          have := h.post_value_eq u q hu
          rw [hv] at this
          exact Option.noConfusion this
      · intro u
        simp only [setThread_threads]
        by_cases hut : u = t
        · rw [if_pos hut]
          exact fun hh => PC.noConfusion hh
        · rw [if_neg hut]
          exact h.no_panic u
      · intro _ hw
        have := hw t
        simp [setThread_threads, PC.isWriter] at this
      · intro u _
        have h0 : c.initCount = 0 := by
          refine h.count_zero hv fun w => ?_
          by_cases hwt : w = t
          · rw [hwt, hpc]
            rfl
          · cases hb : (c.threads w).isWriter
            · rfl
            · exact absurd (h.crit_unique w t (PC.inCrit_of_isWriter _ hb) hcrit_t) hwt
        show c.initCount + 1 = 1
        rw [h0]
      · intro hnv
        exact absurd hv hnv
      · intro q hq
        have hq' : c.cell.value = some q := hq
        rw [hv] at hq'
        exact Option.noConfusion hq'
  | writeSlot p =>
      have hcrit_t : (c.threads t).inCrit = true := by rw [hpc]; rfl
      have hmu : c.cell.init_mu = true := h.mu_of_crit t hcrit_t
      have hv : c.cell.value = none := h.pre_value_none t (Or.inr ⟨p, hpc⟩)
      have hcount : c.initCount = 1 := h.count_one_writer t (by rw [hpc]; rfl)
      have hstep : stepThread c t =
          { c.setThread t (PC.unlockSlow p) with cell := { c.cell with value := some p } } := by
        simp [stepThread, hpc, hv]
      rw [hstep]
      refine ⟨?_, ?_, ?_, ?_, ?_, ?_, ?_, ?_, ?_, ?_⟩
      · intro u _
        exact hmu
      · intro u v hu hv2
        simp only [setThread_threads] at hu hv2
        have hu' : u = t := by
          by_cases hut : u = t
          · exact hut
          · rw [if_neg hut] at hu
            exact h.crit_unique u t hu hcrit_t
        have hv' : v = t := by
          by_cases hvt : v = t
          · exact hvt
          · rw [if_neg hvt] at hv2
            exact h.crit_unique v t hv2 hcrit_t
        rw [hu', hv']
      · intro _
        exact ⟨t, by simp [setThread_threads, PC.inCrit]⟩
      · intro u hu
        exfalso
        simp only [setThread_threads] at hu
        by_cases hut : u = t
        · rw [if_pos hut] at hu
          rcases hu with hu | ⟨q, hu⟩ <;> exact PC.noConfusion hu
        · rw [if_neg hut] at hu
          exact hut (h.crit_unique u t (PC.inCrit_of_pre _ hu) hcrit_t)
      · intro u q hu
        simp only [setThread_threads] at hu
        by_cases hut : u = t
        · rw [if_pos hut] at hu
          rcases hu with hu | hu | hu
          · exact PC.noConfusion hu
          · injection hu with hpq
            rw [← hpq]
          · exact PC.noConfusion hu
        · rw [if_neg hut] at hu
          exfalso
          have := h.post_value_eq u q hu
          rw [hv] at this
          exact Option.noConfusion this
      · intro u
        simp only [setThread_threads]
        by_cases hut : u = t
        · rw [if_pos hut]
          exact fun hh => PC.noConfusion hh
        · rw [if_neg hut]
          exact h.no_panic u
      · intro hv2 _
        exact Option.noConfusion (show (some p : Option Nat) = none from hv2)
      · intro u _
        exact hcount
      · intro _
        exact hcount
      · intro q hq
        have hq' : (some p : Option Nat) = some q := hq
        injection hq' with hpq
        exact ⟨t, Or.inl (by simp [setThread_threads, hpq])⟩
  | unlockSlow p =>
      have hcrit_t : (c.threads t).inCrit = true := by rw [hpc]; rfl
      have hmu : c.cell.init_mu = true := h.mu_of_crit t hcrit_t
      have hv : c.cell.value = some p := h.post_value_eq t p (Or.inr (Or.inl hpc))
      have hstep : stepThread c t =
          { c.setThread t (PC.ret p) with cell := { c.cell with init_mu := false } } := by
        simp [stepThread, hpc, hmu]
      rw [hstep]
      refine ⟨?_, ?_, ?_, ?_, ?_, ?_, ?_, ?_, ?_, ?_⟩
      · intro u hu
        exfalso
        simp only [setThread_threads] at hu
        by_cases hut : u = t
        · rw [if_pos hut] at hu
          exact Bool.noConfusion hu
        · rw [if_neg hut] at hu
          exact hut (h.crit_unique u t hu hcrit_t)
      · intro u v hu _
        exfalso
        simp only [setThread_threads] at hu
        by_cases hut : u = t
        · rw [if_pos hut] at hu
          exact Bool.noConfusion hu
        · rw [if_neg hut] at hu
          exact hut (h.crit_unique u t hu hcrit_t)
      · intro hmu2
        exact Bool.noConfusion hmu2
      · intro u hu
        exfalso
        simp only [setThread_threads] at hu
        by_cases hut : u = t
        · rw [if_pos hut] at hu
          rcases hu with hu | ⟨q, hu⟩ <;> exact PC.noConfusion hu
        · rw [if_neg hut] at hu
          have := h.pre_value_none u hu
          rw [hv] at this
          exact Option.noConfusion this
      · intro u q hu
        simp only [setThread_threads] at hu
        by_cases hut : u = t
        · rw [if_pos hut] at hu
          rcases hu with hu | hu | hu
          · exact PC.noConfusion hu
          · exact PC.noConfusion hu
          · injection hu with hpq
            rw [← hpq]
            exact hv
        · rw [if_neg hut] at hu
          exact h.post_value_eq u q hu
      · intro u
        simp only [setThread_threads]
        by_cases hut : u = t
        · rw [if_pos hut]
          exact fun hh => PC.noConfusion hh
        · rw [if_neg hut]
          exact h.no_panic u
      · intro hv2 _
        have hv3 : c.cell.value = none := hv2
        rw [hv] at hv3
        exact Option.noConfusion hv3
      · intro u hu
        simp only [setThread_threads] at hu
        by_cases hut : u = t
        · rw [if_pos hut] at hu
          exact Bool.noConfusion hu
        · rw [if_neg hut] at hu
          exact h.count_one_writer u hu
      · intro _
        refine h.count_one_value ?_
        rw [hv]
        exact fun hh => Option.noConfusion hh
      · intro q hq
        have hq' : c.cell.value = some q := hq
        rw [hv] at hq'
        injection hq' with hpq
        exact ⟨t, Or.inr (by simp [setThread_threads, hpq])⟩
  | ret p =>
      have hstep : stepThread c t = c := by
        simp [stepThread, hpc]
      rw [hstep]
      exact h
  | panicked =>
      have hstep : stepThread c t = c := by
        simp [stepThread, hpc]
      rw [hstep]
      exact h

/-- Every reachable configuration satisfies the protocol invariant. -/
theorem inv_reachable {F : Type} {f : F} {c : Config F} (h : Reachable f c) : Inv c := by
  induction h with
  | refl => exact inv_init f
  | tail _ hstep ih =>
      obtain ⟨t, rfl⟩ := hstep
      exact inv_step ih t

/-- Once the slot holds a pointer, no step changes it. -/
theorem value_monotone {F : Type} {c : Config F} (h : Inv c) (t : Nat) {p : Nat}
    (hv : c.cell.value = some p) : (stepThread c t).cell.value = some p := by
  cases hpc : c.threads t with
  | load1 =>
      rw [show stepThread c t = c.setThread t (PC.ret p) from by simp [stepThread, hpc, hv]]
      exact hv
  | casLoop =>
      cases hmu : c.cell.init_mu with
      | true =>
          rw [show stepThread c t = c from by simp [stepThread, hpc, hmu]]
          exact hv
      | false =>
          rw [show stepThread c t =
              { c.setThread t PC.load2 with cell := { c.cell with init_mu := true } } from by
            simp [stepThread, hpc, hmu]]
          exact hv
  | load2 =>
      rw [show stepThread c t = c.setThread t (PC.unlockFast p) from by
        simp [stepThread, hpc, hv]]
      exact hv
  | unlockFast q =>
      have hmu : c.cell.init_mu = true := h.mu_of_crit t (by rw [hpc]; rfl)
      rw [show stepThread c t =
          { c.setThread t (PC.ret q) with cell := { c.cell with init_mu := false } } from by
        simp [stepThread, hpc, hmu]]
      exact hv
  | callInit =>
      rw [show stepThread c t =
          { c.setThread t (PC.writeSlot c.nextPtr) with
              initCount := c.initCount + 1, nextPtr := c.nextPtr + 1 } from by
        simp [stepThread, hpc]]
      exact hv
  | writeSlot q =>
      have hnone := h.pre_value_none t (Or.inr ⟨q, hpc⟩)
      rw [hv] at hnone
      exact Option.noConfusion hnone
  | unlockSlow q =>
      have hmu : c.cell.init_mu = true := h.mu_of_crit t (by rw [hpc]; rfl)
      rw [show stepThread c t =
          { c.setThread t (PC.ret q) with cell := { c.cell with init_mu := false } } from by
        simp [stepThread, hpc, hmu]]
      exact hv
  | ret q =>
      rw [show stepThread c t = c from by simp [stepThread, hpc]]
      exact hv
  | panicked =>
      rw [show stepThread c t = c from by simp [stepThread, hpc]]
      exact hv

/-- An agent that acquired the guard and re-checked the slot as occupied
releases the guard and returns the occupied pointer in its next two steps,
without touching the invocation counter. -/
theorem load2_occupied_returns {F : Type} {c : Config F} (h : Inv c) {t p : Nat}
    (hpc : c.threads t = PC.load2) (hv : c.cell.value = some p) :
    (stepThread (stepThread c t) t).threads t = PC.ret p ∧
    (stepThread (stepThread c t) t).initCount = c.initCount := by
  have hmu : c.cell.init_mu = true := h.mu_of_crit t (by rw [hpc]; rfl)
  have h1 : stepThread c t = c.setThread t (PC.unlockFast p) := by
    simp [stepThread, hpc, hv]
  have h2 : (c.setThread t (PC.unlockFast p)).threads t = PC.unlockFast p := by
    simp [setThread_threads]
  have h3 : stepThread (c.setThread t (PC.unlockFast p)) t =
      { (c.setThread t (PC.unlockFast p)).setThread t (PC.ret p) with
          cell := { (c.setThread t (PC.unlockFast p)).cell with init_mu := false } } := by
    simp [stepThread, h2, setThread_cell, hmu]
  rw [h1, h3]
  exact ⟨by simp [setThread_threads], rfl⟩

/-- A step of one agent does not change any other agent's control state. -/
theorem stepThread_threads_other {F : Type} (c : Config F) (s u : Nat) (hne : u ≠ s) :
    (stepThread c s).threads u = c.threads u := by
  cases hpc : c.threads s with
  | load1 => cases hv : c.cell.value <;> simp [stepThread, hpc, hv, setThread_threads, hne]
  | casLoop => cases hmu : c.cell.init_mu <;> simp [stepThread, hpc, hmu, setThread_threads, hne]
  | load2 => cases hv : c.cell.value <;> simp [stepThread, hpc, hv, setThread_threads, hne]
  | unlockFast p => simp [stepThread, hpc, setThread_threads, hne]
  | callInit => simp [stepThread, hpc, setThread_threads, hne]
  | writeSlot p => simp [stepThread, hpc, setThread_threads, hne]
  | unlockSlow p => simp [stepThread, hpc, setThread_threads, hne]
  | ret p => simp [stepThread, hpc]
  | panicked => simp [stepThread, hpc]

/-- An agent that is never scheduled is still poised at its first load. -/
theorem run_threads_of_not_scheduled {F : Type} (f : F) (sched : List Nat) (t : Nat)
    (h : ∀ s ∈ sched, t ≠ s) : (run f sched).threads t = PC.load1 := by
  suffices h2 : ∀ (l : List Nat) (c : Config F), (∀ s ∈ l, t ≠ s) → c.threads t = PC.load1 →
      (l.foldl stepThread c).threads t = PC.load1 from h2 sched _ h rfl
  intro l
  induction l with
  | nil => intro c _ hc; exact hc
  | cons s ts ih =>
      intro c hmem hc
      refine ih _ (fun x hx => hmem x (List.mem_cons_of_mem s hx)) ?_
      rw [stepThread_threads_other c s t (hmem s (List.mem_cons_self s ts))]
      exact hc

/-- A step of an agent that is not about to perform the slot swap leaves the
slot unchanged. -/
theorem stepThread_value_eq {F : Type} (c : Config F) (t : Nat)
    (h : ∀ p, c.threads t ≠ PC.writeSlot p) : (stepThread c t).cell.value = c.cell.value := by
  cases hpc : c.threads t with
  | load1 => cases hv : c.cell.value <;> simp [stepThread, hpc, hv, setThread_cell]
  | casLoop => cases hmu : c.cell.init_mu <;> simp [stepThread, hpc, hmu, setThread_cell]
  | load2 => cases hv : c.cell.value <;> simp [stepThread, hpc, hv, setThread_cell]
  | unlockFast p => simp [stepThread, hpc, setThread_cell]
  | callInit => simp [stepThread, hpc, setThread_cell]
  | writeSlot p => exact absurd hpc (h p)
  | unlockSlow p => simp [stepThread, hpc, setThread_cell]
  | ret p => simp [stepThread, hpc]
  | panicked => simp [stepThread, hpc]

/-- An agent with no `deref` call in flight: it has either not entered the
routine or already returned. -/
def PC.idle : PC → Bool
  | PC.load1 => true
  | PC.ret _ => true
  | _ => false

/-- C1: in every reachable configuration the stored initializer has been
invoked at most once; once some access call has completed (returned a
pointer) it has been invoked exactly once; and an agent that holds the guard
and re-checks the slot as occupied returns the occupied pointer without
invoking the initializer. -/
theorem claim_init_at_most_once {F : Type} (f : F) (c : Config F) (h : Reachable f c) :
    c.initCount ≤ 1 ∧
    (∀ t p, c.threads t = PC.ret p → c.initCount = 1) ∧
    (∀ t p, c.threads t = PC.load2 → c.cell.value = some p →
      (stepThread (stepThread c t) t).threads t = PC.ret p ∧
      (stepThread (stepThread c t) t).initCount = c.initCount) := by
  have hInv := inv_reachable h
  refine ⟨?_, ?_, ?_⟩
  · cases hv : c.cell.value with
    | none =>
        by_cases hw : ∀ t, (c.threads t).isWriter = false
        · rw [hInv.count_zero hv hw]
          exact Nat.zero_le 1
        · push_neg at hw
          obtain ⟨t, ht⟩ := hw
          have hwt : (c.threads t).isWriter = true := by
            cases hb : (c.threads t).isWriter
            · exact absurd hb ht
            · rfl
          rw [hInv.count_one_writer t hwt]
    | some p =>
        rw [hInv.count_one_value (by rw [hv]; exact fun hh => Option.noConfusion hh)]
  · intro t p hret
    refine hInv.count_one_value ?_
    rw [hInv.post_value_eq t p (Or.inr (Or.inr hret))]
    exact fun hh => Option.noConfusion hh
  · intro t p hl hv
    exact load2_occupied_returns hInv hl hv

/-- C1 witness: a two-agent race in which agent 0 initializes and agent 1,
holding the guard with the slot occupied, returns without a second
invocation. -/
theorem claim_init_at_most_once_witness :
    (run () [1, 0, 0, 0, 0, 0, 0, 1]).initCount ≤ 1 ∧
    (run () [1, 0, 0, 0, 0, 0, 0, 1]).initCount = 1 ∧
    (stepThread (stepThread (run () [1, 0, 0, 0, 0, 0, 0, 1]) 1) 1).threads 1 = PC.ret 0 := by
  have hc := claim_init_at_most_once () _ (reachable_run () [1, 0, 0, 0, 0, 0, 0, 1])
  exact ⟨hc.1, hc.2.1 0 0 (by decide), (hc.2.2 1 0 (by decide) (by decide)).1⟩

/-- C2: `Lazy::new` stores the initializer, sets the slot to null and the
guard to unlocked, performs no allocation (the allocation counter of the
initial configuration is `0`) and no invocation; a reachable configuration
in which every agent is still at its first load has invocation count `0`. -/
theorem claim_new_empty_unlocked {F : Type} (f : F) (c : Config F) (h : Reachable f c) :
    (Lazy.new f).value = none ∧
    (Lazy.new f).init_mu = false ∧
    (Lazy.new f).init = f ∧
    (initConfig f).cell = Lazy.new f ∧
    (initConfig f).initCount = 0 ∧
    (initConfig f).nextPtr = 0 ∧
    ((∀ t, c.threads t = PC.load1) → c.initCount = 0) := by
  have hInv := inv_reachable h
  refine ⟨rfl, rfl, rfl, rfl, rfl, rfl, ?_⟩
  intro hall
  have hv : c.cell.value = none := by
    cases hv : c.cell.value with
    | none => rfl
    | some p =>
        obtain ⟨u, hu⟩ := hInv.writer_witness p hv
        rcases hu with hu | hu <;> rw [hall u] at hu <;> exact PC.noConfusion hu
  refine hInv.count_zero hv fun u => ?_
  rw [hall u]
  rfl

/-- C2 witness: the initial configuration itself. -/
theorem claim_new_empty_unlocked_witness :
    (Lazy.new ()).value = none ∧
    (Lazy.new ()).init_mu = false ∧
    (initConfig ()).initCount = 0 := by
  have hc := claim_new_empty_unlocked () (initConfig ()) Relation.ReflTransGen.refl
  exact ⟨hc.1, hc.2.1, hc.2.2.2.2.2.2 fun t => rfl⟩

/-- C3: any two completed access calls returned the same pointer; once the
slot holds a pointer no step changes it; and every completed call's pointer
is exactly the slot's current content. -/
theorem claim_same_value {F : Type} (f : F) (c : Config F) (h : Reachable f c) :
    (∀ t u p q, c.threads t = PC.ret p → c.threads u = PC.ret q → p = q) ∧
    (∀ p c', c.cell.value = some p → Step c c' → c'.cell.value = some p) ∧
    (∀ t p, c.threads t = PC.ret p → c.cell.value = some p) := by
  have hInv := inv_reachable h
  refine ⟨?_, ?_, ?_⟩
  · intro t u p q ht hu
    have h1 := hInv.post_value_eq t p (Or.inr (Or.inr ht))
    have h2 := hInv.post_value_eq u q (Or.inr (Or.inr hu))
    rw [h1] at h2
    exact Option.some.inj h2
  · intro p c' hv hstep
    obtain ⟨t, rfl⟩ := hstep
    exact value_monotone hInv t hv
  · intro t p ht
    exact hInv.post_value_eq t p (Or.inr (Or.inr ht))

/-- C3 witness: agents 0 and 1 both complete after a race and return the
identical pointer, and a further step leaves the slot unchanged. -/
theorem claim_same_value_witness :
    (0 : Nat) = 0 ∧
    (stepThread (run () [1, 0, 0, 0, 0, 0, 0, 1, 1, 1]) 2).cell.value = some 0 := by
  have hc := claim_same_value () _ (reachable_run () [1, 0, 0, 0, 0, 0, 0, 1, 1, 1])
  exact ⟨hc.1 0 1 0 0 (by decide) (by decide), hc.2.1 0 _ (by decide) ⟨2, rfl⟩⟩

/-- C4: the `assert!` invariants of `deref` are unreachable: no reachable
configuration has a panicked agent; at the slot swap the prior slot value is
null; at either guard release point the guard is locked. -/
theorem claim_asserts_unreachable {F : Type} (f : F) (c : Config F) (h : Reachable f c) :
    (∀ t, c.threads t ≠ PC.panicked) ∧
    (∀ t p, c.threads t = PC.writeSlot p → c.cell.value = none) ∧
    (∀ t p, c.threads t = PC.unlockFast p ∨ c.threads t = PC.unlockSlow p →
      c.cell.init_mu = true) := by
  have hInv := inv_reachable h
  refine ⟨hInv.no_panic, ?_, ?_⟩
  · intro t p hw
    exact hInv.pre_value_none t (Or.inr ⟨p, hw⟩)
  · intro t p hw
    refine hInv.mu_of_crit t ?_
    rcases hw with hw | hw <;> rw [hw] <;> rfl

/-- C4 witness: concrete reachable configurations at the swap and at the
slow-path release, where the asserted prior values indeed hold. -/
theorem claim_asserts_unreachable_witness :
    (run () [0, 0, 0, 0]).cell.value = none ∧
    (run () [0, 0, 0, 0, 0]).cell.init_mu = true := by
  have h1 := claim_asserts_unreachable () _ (reachable_run () [0, 0, 0, 0])
  have h2 := claim_asserts_unreachable () _ (reachable_run () [0, 0, 0, 0, 0])
  exact ⟨h1.2.1 0 0 (by decide), h2.2.2 0 0 (Or.inr (by decide))⟩

/-- C5: each release point resets the guard to unlocked and returns, on both
the fast-return-after-recheck path and the full-initialization path; in every
reachable configuration with no call in flight the guard is unlocked. -/
theorem claim_guard_released {F : Type} (f : F) (c : Config F) (h : Reachable f c) :
    ((∀ t, (c.threads t).idle = true) → c.cell.init_mu = false) ∧
    (∀ t p, c.threads t = PC.unlockFast p →
      (stepThread c t).cell.init_mu = false ∧ (stepThread c t).threads t = PC.ret p) ∧
    (∀ t p, c.threads t = PC.unlockSlow p →
      (stepThread c t).cell.init_mu = false ∧ (stepThread c t).threads t = PC.ret p) := by
  have hInv := inv_reachable h
  refine ⟨?_, ?_, ?_⟩
  · intro hall
    cases hmu : c.cell.init_mu with
    | false => rfl
    | true =>
        exfalso
        obtain ⟨t, ht⟩ := hInv.crit_of_mu hmu
        have hidle := hall t
        cases hpc : c.threads t <;> rw [hpc] at ht hidle <;>
          first
            | exact Bool.noConfusion ht
            | exact Bool.noConfusion hidle
  · intro t p hpc
    have hmu : c.cell.init_mu = true := hInv.mu_of_crit t (by rw [hpc]; rfl)
    rw [show stepThread c t =
        { c.setThread t (PC.ret p) with cell := { c.cell with init_mu := false } } from by
      simp [stepThread, hpc, hmu]]
    exact ⟨rfl, by simp [setThread_threads]⟩
  · intro t p hpc
    have hmu : c.cell.init_mu = true := hInv.mu_of_crit t (by rw [hpc]; rfl)
    rw [show stepThread c t =
        { c.setThread t (PC.ret p) with cell := { c.cell with init_mu := false } } from by
      simp [stepThread, hpc, hmu]]
    exact ⟨rfl, by simp [setThread_threads]⟩

/-- C5 witness: after a complete single-agent execution the guard is
unlocked; the fast release and the slow release both unlock and return. -/
theorem claim_guard_released_witness :
    (run () [0, 0, 0, 0, 0, 0]).cell.init_mu = false ∧
    (stepThread (run () [1, 0, 0, 0, 0, 0, 0, 1, 1]) 1).cell.init_mu = false ∧
    (stepThread (run () [0, 0, 0, 0, 0]) 0).threads 0 = PC.ret 0 := by
  have h1 := claim_guard_released () _ (reachable_run () [0, 0, 0, 0, 0, 0])
  have h2 := claim_guard_released () _ (reachable_run () [1, 0, 0, 0, 0, 0, 0, 1, 1])
  have h3 := claim_guard_released () _ (reachable_run () [0, 0, 0, 0, 0])
  refine ⟨h1.1 fun t => ?_, (h2.2.1 1 0 (by decide)).1, (h3.2.2 0 0 (by decide)).2⟩
  by_cases h0 : t = 0
  · rw [h0]
    decide
  · rw [run_threads_of_not_scheduled () [0, 0, 0, 0, 0, 0] t ?_]
    · rfl
    · intro s hs
      simp only [List.mem_cons, List.not_mem_nil, or_false, or_self] at hs
      rw [hs]
      exact h0

/-- C6: `Drop` releases the owned allocation exactly once when the slot is
occupied, performs no release when it is empty, and frees an allocation if
and only if the slot pointer is non-null. -/
theorem claim_drop {F : Type} (c : Lazy F) :
    (∀ p, c.value = some p → c.dropFreed = [p]) ∧
    (c.value = none → c.dropFreed = []) ∧
    (∀ p, p ∈ c.dropFreed ↔ c.value = some p) ∧
    c.dropFreed.length ≤ 1 := by
  cases hv : c.value with
  | some q =>
      refine ⟨?_, ?_, ?_, ?_⟩
      · intro p hp
        injection hp with hq
        simp [Lazy.dropFreed, hv, hq]
      · intro hp
        exact Option.noConfusion hp
      · intro p
        simp only [Lazy.dropFreed, hv, List.mem_singleton, Option.some.injEq]
        exact eq_comm
      · simp [Lazy.dropFreed, hv]
  | none =>
      refine ⟨?_, ?_, ?_, ?_⟩
      · intro p hp
        exact Option.noConfusion hp
      · intro _
        simp [Lazy.dropFreed, hv]
      · intro p
        simp [Lazy.dropFreed, hv]
      · simp [Lazy.dropFreed, hv]

/-- C6 witness: dropping an occupied cell frees its single allocation;
dropping an empty cell frees nothing. -/
theorem claim_drop_witness :
    (Lazy.mk (some 7) false ()).dropFreed = [7] ∧
    (Lazy.mk none false ()).dropFreed = [] :=
  ⟨(claim_drop (Lazy.mk (some 7) false ())).1 7 rfl,
   (claim_drop (Lazy.mk none false ())).2.1 rfl⟩

/-- C7: every write to the slot performed by any step carries the
sequentially-consistent ordering, every load of the slot carries the acquire
ordering, and a completed access call observed the slot's full pointer — in
the interleaving semantics, which renders each atomic operation indivisible,
a returned pointer always equals the occupying store's value. -/
theorem claim_mem_ordering {F : Type} (f : F) (c : Config F) (h : Reachable f c) :
    (∀ t e, e ∈ stepEvents c t →
      e.valueWriteOrd = none ∨ e.valueWriteOrd = some MemOrder.seqcst) ∧
    (∀ t e, e ∈ stepEvents c t →
      e.valueLoadOrd = none ∨ e.valueLoadOrd = some MemOrder.acquire) ∧
    (∀ t p, c.threads t = PC.ret p → c.cell.value = some p) := by
  have hInv := inv_reachable h
  have hev : ∀ t e, e ∈ stepEvents c t →
      (e.valueWriteOrd = none ∨ e.valueWriteOrd = some MemOrder.seqcst) ∧
      (e.valueLoadOrd = none ∨ e.valueLoadOrd = some MemOrder.acquire) := by
    intro t e he
    cases hpc : c.threads t with
    | load1 =>
        simp only [stepEvents, hpc, List.mem_singleton] at he
        rw [he]
        exact ⟨Or.inl rfl, Or.inr rfl⟩
    | casLoop =>
        cases hmu : c.cell.init_mu <;> simp [stepEvents, hpc, hmu] at he
        · rw [he]
          exact ⟨Or.inl rfl, Or.inl rfl⟩
        · rcases he with he | he <;> rw [he] <;> exact ⟨Or.inl rfl, Or.inl rfl⟩
    | load2 =>
        simp only [stepEvents, hpc, List.mem_singleton] at he
        rw [he]
        exact ⟨Or.inl rfl, Or.inr rfl⟩
    | unlockFast p =>
        simp only [stepEvents, hpc, List.mem_singleton] at he
        rw [he]
        exact ⟨Or.inl rfl, Or.inl rfl⟩
    | callInit =>
        simp only [stepEvents, hpc, List.mem_singleton] at he
        rw [he]
        exact ⟨Or.inl rfl, Or.inl rfl⟩
    | writeSlot p =>
        simp only [stepEvents, hpc, List.mem_singleton] at he
        rw [he]
        exact ⟨Or.inr rfl, Or.inl rfl⟩
    | unlockSlow p =>
        simp only [stepEvents, hpc, List.mem_singleton] at he
        rw [he]
        exact ⟨Or.inl rfl, Or.inl rfl⟩
    | ret p =>
        simp only [stepEvents, hpc, List.not_mem_nil] at he
    | panicked =>
        simp only [stepEvents, hpc, List.not_mem_nil] at he
  exact ⟨fun t e he => (hev t e he).1, fun t e he => (hev t e he).2,
    fun t p ht => hInv.post_value_eq t p (Or.inr (Or.inr ht))⟩

/-- C7 witness: the occupying swap at a concrete reachable configuration is
sequentially consistent, and the completed agent's pointer equals the slot. -/
theorem claim_mem_ordering_witness :
    (Event.swapValue MemOrder.seqcst 0 none).valueWriteOrd = some MemOrder.seqcst ∧
    (run () [0, 0, 0, 0, 0, 0]).cell.value = some 0 := by
  have h1 := claim_mem_ordering () _ (reachable_run () [0, 0, 0, 0])
  have h2 := claim_mem_ordering () _ (reachable_run () [0, 0, 0, 0, 0, 0])
  refine ⟨?_, h2.2.2 0 0 (by decide)⟩
  rcases h1.1 0 (Event.swapValue MemOrder.seqcst 0 none) (by decide) with hw | hw
  · exact absurd hw (by decide)
  · exact hw

/-- C8 counterexample: the claim states both guard transitions are
compare-and-swap operations, but at the slow-path release point (a reachable
configuration) the guard transition event is an unconditional `swap`, which
is not a compare-exchange. -/
theorem claim_guard_cas_counterexample :
    ¬ (∀ e, e ∈ stepEvents (run () [0, 0, 0, 0, 0]) 0 → e.isMuOp = true → e.isCex = true) := by
  intro hall
  have hswap := hall (Event.swapMu MemOrder.seqcst false true) (by decide) (by decide)
  exact Bool.noConfusion hswap

/-- C8 amended: the lock transition (unlocked → locked) is implemented with
`compare_exchange(false, true, SeqCst, SeqCst)`, updating the flag only when
it equals the expected value `false`; the unlock transition is implemented
with the unconditional atomic `swap(false, SeqCst)`, whose returned prior
value the source asserts to be `true`. -/
theorem claim_guard_ops {F : Type} (c : Config F) (t : Nat) :
    (c.threads t = PC.casLoop →
      stepEvents c t =
        Event.cexMu false true MemOrder.seqcst MemOrder.seqcst c.cell.init_mu ::
          (if c.cell.init_mu then [Event.spinHint] else []) ∧
      (c.cell.init_mu = false → (stepThread c t).cell.init_mu = true) ∧
      (c.cell.init_mu = true → stepThread c t = c)) ∧
    (∀ p, c.threads t = PC.unlockFast p ∨ c.threads t = PC.unlockSlow p →
      stepEvents c t = [Event.swapMu MemOrder.seqcst false c.cell.init_mu] ∧
      (stepThread c t).cell.init_mu = false) := by
  constructor
  · intro hpc
    refine ⟨by simp [stepEvents, hpc], ?_, ?_⟩
    · intro hmu
      rw [show stepThread c t =
          { c.setThread t PC.load2 with cell := { c.cell with init_mu := true } } from by
        simp [stepThread, hpc, hmu]]
    · intro hmu
      simp [stepThread, hpc, hmu]
  · intro p hp
    rcases hp with hpc | hpc
    · have hstep : stepThread c t =
          { c.setThread t (if c.cell.init_mu then PC.ret p else PC.panicked) with
              cell := { c.cell with init_mu := false } } := by
        simp [stepThread, hpc]
      exact ⟨by simp [stepEvents, hpc], by rw [hstep]⟩
    · have hstep : stepThread c t =
          { c.setThread t (if c.cell.init_mu then PC.ret p else PC.panicked) with
              cell := { c.cell with init_mu := false } } := by
        simp [stepThread, hpc]
      exact ⟨by simp [stepEvents, hpc], by rw [hstep]⟩

/-- C8 amended witness: the lock step flips the guard from unlocked to
locked at a concrete configuration, and the slow-path release resets it. -/
theorem claim_guard_ops_witness :
    (stepThread (run () [0]) 0).cell.init_mu = true ∧
    (stepThread (run () [0, 0, 0, 0, 0]) 0).cell.init_mu = false := by
  have h1 := claim_guard_ops (run () [0]) 0
  have h2 := claim_guard_ops (run () [0, 0, 0, 0, 0]) 0
  exact ⟨(h1.1 (by decide)).2.1 (by decide), (h2.2 0 (Or.inr (by decide))).2⟩

/-- C9: in every reachable configuration an agent at the slot swap holds the
guard and is the only agent in the critical section; any step that changes
the slot is such a swap step; and the only transition from outside the
critical section into it is a successful compare-exchange from the spin
loop, performed when the guard is unlocked. -/
theorem claim_writer_holds_guard {F : Type} (f : F) (c : Config F) (h : Reachable f c) :
    (∀ t p, c.threads t = PC.writeSlot p →
      c.cell.init_mu = true ∧ ∀ u, (c.threads u).inCrit = true → u = t) ∧
    (∀ t, (stepThread c t).cell.value ≠ c.cell.value → ∃ p, c.threads t = PC.writeSlot p) ∧
    (∀ t, (c.threads t).inCrit = false → ((stepThread c t).threads t).inCrit = true →
      c.threads t = PC.casLoop ∧ c.cell.init_mu = false) := by
  have hInv := inv_reachable h
  refine ⟨?_, ?_, ?_⟩
  · intro t p hpc
    have hcrit : (c.threads t).inCrit = true := by rw [hpc]; rfl
    exact ⟨hInv.mu_of_crit t hcrit, fun u hu => hInv.crit_unique u t hu hcrit⟩
  · intro t hne
    by_contra hno
    push_neg at hno
    exact hne (stepThread_value_eq c t hno)
  · intro t h1 h2
    cases hpc : c.threads t with
    | load1 =>
        exfalso
        cases hv : c.cell.value with
        | some p =>
            rw [show stepThread c t = c.setThread t (PC.ret p) from by
              simp [stepThread, hpc, hv]] at h2
            simp [setThread_threads, PC.inCrit] at h2
        | none =>
            rw [show stepThread c t = c.setThread t PC.casLoop from by
              simp [stepThread, hpc, hv]] at h2
            simp [setThread_threads, PC.inCrit] at h2
    | casLoop =>
        cases hmu : c.cell.init_mu with
        | true =>
            exfalso
            rw [show stepThread c t = c from by simp [stepThread, hpc, hmu]] at h2
            rw [hpc] at h2
            exact Bool.noConfusion h2
        | false => exact ⟨rfl, rfl⟩
    | load2 => exact absurd h1 (by rw [hpc]; simp [PC.inCrit])
    | unlockFast p => exact absurd h1 (by rw [hpc]; simp [PC.inCrit])
    | callInit => exact absurd h1 (by rw [hpc]; simp [PC.inCrit])
    | writeSlot p => exact absurd h1 (by rw [hpc]; simp [PC.inCrit])
    | unlockSlow p => exact absurd h1 (by rw [hpc]; simp [PC.inCrit])
    | ret p =>
        exfalso
        rw [show stepThread c t = c from by simp [stepThread, hpc]] at h2
        rw [hpc] at h2
        exact Bool.noConfusion h2
    | panicked =>
        exfalso
        rw [show stepThread c t = c from by simp [stepThread, hpc]] at h2
        rw [hpc] at h2
        exact Bool.noConfusion h2

/-- C9 witness: a concrete reachable writer holds the guard, and the
concrete guard acquisition happens from the spin loop with the guard
unlocked. -/
theorem claim_writer_holds_guard_witness :
    (run () [0, 0, 0, 0]).cell.init_mu = true ∧
    (run () [0]).threads 0 = PC.casLoop := by
  have h1 := claim_writer_holds_guard () _ (reachable_run () [0, 0, 0, 0])
  have h2 := claim_writer_holds_guard () _ (reachable_run () [0])
  exact ⟨(h1.1 0 0 (by decide)).1, (h2.2.2 0 (by decide) (by decide)).1⟩

/-- C10: an access call that finds the slot occupied at its first load
changes nothing: the cell (slot, guard and stored initializer), the
invocation counter, the allocation counter and every other agent are
untouched, the agent returns the occupied pointer, and the only shared-state
operation performed is the single acquire load of the slot. -/
theorem claim_fast_path_frame {F : Type} (c : Config F) (t p : Nat)
    (h1 : c.threads t = PC.load1) (h2 : c.cell.value = some p) :
    (stepThread c t).cell = c.cell ∧
    (stepThread c t).initCount = c.initCount ∧
    (stepThread c t).nextPtr = c.nextPtr ∧
    (∀ u, u ≠ t → (stepThread c t).threads u = c.threads u) ∧
    (stepThread c t).threads t = PC.ret p ∧
    stepEvents c t = [Event.loadValue MemOrder.acquire (some p)] := by
  have hstep : stepThread c t = c.setThread t (PC.ret p) := by
    simp [stepThread, h1, h2]
  rw [hstep]
  refine ⟨rfl, rfl, rfl, ?_, ?_, ?_⟩
  · intro u hu
    simp [setThread_threads, hu]
  · simp [setThread_threads]
  · simp [stepEvents, h1, h2]

/-- C10 witness: agent 1 reads an already occupied cell; the cell and the
counters are unchanged and agent 1 returns the occupied pointer. -/
theorem claim_fast_path_frame_witness :
    (stepThread (run () [0, 0, 0, 0, 0, 0]) 1).cell = (run () [0, 0, 0, 0, 0, 0]).cell ∧
    (stepThread (run () [0, 0, 0, 0, 0, 0]) 1).initCount =
      (run () [0, 0, 0, 0, 0, 0]).initCount ∧
    (stepThread (run () [0, 0, 0, 0, 0, 0]) 1).threads 1 = PC.ret 0 := by
  have hc := claim_fast_path_frame (run () [0, 0, 0, 0, 0, 0]) 1 0 (by decide) (by decide)
  exact ⟨hc.1, hc.2.1, hc.2.2.2.2.1⟩

end LazyRs
